import Mathlib

/-!
# Producer / multi-consumer pipeline: `a1-parallel-atomic.cpp` and `a1-parallel-mutex.cpp`

A shallow embedding of the two programs and proofs about their queue protocol,
work distribution and aggregation.

Modelling conventions.

* `int` values and counters are mathematical integers (`Int`); the counters of the
  programs are only ever incremented, once per item, and agree with the model as long
  as fewer than `2^31` items are processed.
* The `double` accumulator `sum` is taken as an exact number (`Int`): every addend is an `int`.
* `main` waits for the producer (`producer_future.get()`) before it starts the first
  worker, so every queue is complete when its worker starts.  Each worker touches only
  its own queue and adds to the shared counters; the workers are run one after the other
  in the order in which `main` creates them; `A1Atomic.runSchedule` interleaves their loop
  iterations instead, and `A1Atomic.runSchedule_eq` shows that the result is the same.
* Indexing a vector outside its bounds is undefined behaviour (`bump` returns `none`).
  In the atomic program the vector is `number_counts` of `main`: the addition goes to
  memory outside the ten buckets, the buckets and the other counters are as before, and
  the worker goes on; the model counts such additions in the field `out_of_bounds`.  In
  the mutex program the vector is the worker's `local_number_counts`: the worker has no
  defined result from there on (`Outcome.undefinedBehaviour`).
* `kernel` (from `a1-helpers.hpp`) is a parameter of the model.
-/

/-! ## Parts shared by the two programs -/

namespace A1

/-- The statistics written by the workers: the variables `primes`, `nonprimes`, `sum`,
`consumed_count` and `number_counts` of `main` (and their `local_` copies in the mutex
program).  `out_of_bounds` is no variable of the programs: it counts the additions
`number_counts[i].fetch_add(1)` whose index `i` was outside the vector. -/
structure Stats where
  primes : Int
  nonprimes : Int
  sum : Int
  consumed_count : Int
  number_counts : List Int
  out_of_bounds : Int
  deriving DecidableEq, Repr

/-- Initial values: all counters zero, `number_counts` a vector of ten zeros. -/
def Stats.init : Stats :=
  { primes := 0, nonprimes := 0, sum := 0, consumed_count := 0,
    number_counts := List.replicate 10 0, out_of_bounds := 0 }

/-- How a run of a worker or of a program ends: it returns a result, it does not return
(it waits for ever, or the iterations allowed were not enough), or it runs into
undefined behaviour. -/
inductive Outcome (α : Type) where
  | returned (a : α)
  | noReturn
  | undefinedBehaviour
  deriving DecidableEq, Repr

/-- The C++ expression `num % 10` on `int`: remainder of the division truncating
towards zero (so it is negative for a negative `num` that is no multiple of 10). -/
def digitIndex (num : Int) : Int := Int.tmod num 10

/-- The C++ statement `counts[i]++` (or `counts[i].fetch_add(1)`): `none` when `i` is not
an index of the vector. -/
def bump (counts : List Int) (i : Int) : Option (List Int) :=
  if 0 ≤ i ∧ i < counts.length then some (List.modify (· + 1) i.toNat counts) else none

/-- The total of the buckets of the histogram. -/
def Stats.histogramTotal (s : Stats) : Int := s.number_counts.sum

/-! ### The input stream (`std::ifstream`, `ifs >> num`) -/

/-- State of a `std::ifstream`: the characters not read yet and the two state bits the
producer depends on. -/
structure IStream where
  buf : List Char
  eofbit : Bool
  failbit : Bool
  deriving DecidableEq, Repr

/-- `std::ifstream ifs(filename)`: `none` stands for a file that cannot be opened, which
leaves the stream with `failbit` set. -/
def IStream.open : Option (List Char) → IStream
  | some contents => { buf := contents, eofbit := false, failbit := false }
  | none => { buf := [], eofbit := false, failbit := true }

/-- `ifs.eof()`. -/
def IStream.eof (s : IStream) : Bool := s.eofbit

/-- `ifs.good()`. -/
def IStream.good (s : IStream) : Bool := !s.eofbit && !s.failbit

/-- `std::isspace` in the classic locale. -/
def isspace (c : Char) : Bool := c.toNat == 32 || (9 ≤ c.toNat && c.toNat ≤ 13)

/-- `std::isdigit`. -/
def isdigit (c : Char) : Bool := 48 ≤ c.toNat && c.toNat ≤ 57

def INT_MAX : Int := 2147483647

def INT_MIN : Int := -2147483648

/-- The value of a run of decimal digits. -/
def digitsValue (ds : List Char) : Int :=
  ds.foldl (fun acc d => 10 * acc + ((d.toNat : Int) - 48)) 0

/-- `ifs >> num` for `int num`.  The first component is the value stored into `num`,
`none` when `num` is not written at all.

* stream not `good()`: `failbit` is set, nothing is read, `num` is not written;
* else leading white space is skipped; if the input ends there, `eofbit` and `failbit`
  are set and `num` is not written;
* else an optional sign and the longest run of digits are read; `eofbit` is set when the
  input ends with them; no digit: `0` is stored and `failbit` set; a value outside
  `int`: the nearest bound is stored and `failbit` set. -/
def IStream.extractInt (s : IStream) : Option Int × IStream :=
  if !s.good then (none, { s with failbit := true })
  else
    match s.buf.dropWhile isspace with
    | [] => (none, { buf := [], eofbit := true, failbit := true })
    | c :: cs =>
      let neg := c == '-'
      let afterSign := if c == '-' || c == '+' then cs else c :: cs
      let digits := afterSign.takeWhile isdigit
      let rest := afterSign.dropWhile isdigit
      if digits.isEmpty then
        (some 0, { buf := rest, eofbit := rest.isEmpty, failbit := true })
      else
        let v := if neg then - digitsValue digits else digitsValue digits
        if v < INT_MIN then
          (some INT_MIN, { buf := rest, eofbit := rest.isEmpty, failbit := true })
        else if INT_MAX < v then
          (some INT_MAX, { buf := rest, eofbit := rest.isEmpty, failbit := true })
        else
          (some v, { buf := rest, eofbit := rest.isEmpty, failbit := false })

/-- The local variables of `producer` together with the queues it fills. -/
structure ProducerState (Q : Type) where
  qs : List Q
  produced_count : Int
  current_q : Nat

/-- The three statements of the producer's loop after the read:
`qs[current_q].push(num); produced_count++; current_q = (current_q + 1) % num_threads;`
(`push` is the queue's own). -/
def pushStep {Q : Type} (push : Q → Int → Q) (num_threads : Nat)
    (st : ProducerState Q) (num : Int) : ProducerState Q :=
  { qs := List.modify (fun q => push q num) st.current_q st.qs
    produced_count := st.produced_count + 1
    current_q := (st.current_q + 1) % num_threads }

/-- The loop `while (!ifs.eof()) { int num; ifs >> num; ...push... }` of `producer`.
`fuel` bounds the number of iterations (`none`: not finished within `fuel`
iterations).  `uninit k` is the indeterminate content of the uninitialised `num` in the
iteration that follows `k` pushes; it is what gets pushed when the read stores nothing. -/
def producerLoop {Q : Type} (push : Q → Int → Q) (uninit : Int → Int) (num_threads : Nat) :
    Nat → IStream → ProducerState Q → Option (ProducerState Q)
  | 0, _, _ => none
  | fuel + 1, ifs, st =>
    if ifs.eof then some st
    else
      let r := ifs.extractInt
      let num := r.1.getD (uninit st.produced_count)
      producerLoop push uninit num_threads fuel r.2 (pushStep push num_threads st num)

/-- Modelled from the spec: the classifier `kernel` of `a1-helpers.hpp`, which is not
among the sources; the spec describes it as the pure predicate `is_prime(n)`.  The
programs test `kernel(num) == 1`.  Used only to evaluate the programs on concrete
inputs; the general theorems hold for every classifier. -/
def isPrimeKernel (n : Int) : Int :=
  if 2 ≤ n ∧ ∀ d ∈ List.range n.toNat, 2 ≤ d → n.toNat % d ≠ 0 then 1 else 0

/-! ### Specification-side definitions -/

/-- Round-robin shard `j` of `n`: the values `v_k` of the sequence with `k mod n = j`, in
increasing order of `k`. -/
def shard (n j : Nat) (vals : List Int) : List Int :=
  ((vals.enum).filter (fun p => p.1 % n = j)).map Prod.snd

/-- The histogram has the ten buckets it was created with. -/
def Stats.TenBuckets (s : Stats) : Prop := s.number_counts.length = 10

/-- Every classified item was counted as a prime or as a non-prime. -/
def Stats.Classified (s : Stats) : Prop := s.primes + s.nonprimes = s.consumed_count

end A1

/-! ## `a1-parallel-atomic.cpp` -/

namespace A1Atomic

open A1

/-- `SafeQ<int>` of the atomic program: the `std::queue` (front of the queue = head of
the list) and the flag `producer_done`.  The spin lock `locked` is free whenever a
method is entered, since producer and worker do not overlap. -/
structure SafeQ where
  q : List Int
  producer_done : Bool
  deriving DecidableEq, Repr

/-- A freshly constructed queue. -/
def SafeQ.new : SafeQ := { q := [], producer_done := false }

def SafeQ.set_producer_done (s : SafeQ) : SafeQ := { s with producer_done := true }

def SafeQ.is_producer_done (s : SafeQ) : Bool := s.producer_done

def SafeQ.push (s : SafeQ) (value : Int) : SafeQ := { s with q := s.q ++ [value] }

/-- `SafeQ::wait_and_pop`.  The result is `some (some v, s')` for
`make_shared<T>(v)`, `some (none, s')` for `nullptr`, and `none` when the loop has not
returned after `fuel` rounds (each round ends in `yield()`; nobody else changes the
queue, so the next round sees the same state). -/
def SafeQ.wait_and_pop : Nat → SafeQ → Option (Option Int × SafeQ)
  | 0, _ => none
  | fuel + 1, s =>
    match s.q with
    | value :: rest => some (some value, { s with q := rest })
    | [] => if s.is_producer_done then some (none, s) else SafeQ.wait_and_pop fuel s

/-- Values-level producer: the loop body applied to each pushed value in turn, then
`set_producer_done` on every queue.  Returns the queues and `produced_count`. -/
def producerPushing (vals : List Int) (qs : List SafeQ) (num_threads : Nat) :
    List SafeQ × Int :=
  let st := vals.foldl (pushStep SafeQ.push num_threads)
    { qs := qs, produced_count := 0, current_q := 0 }
  (st.qs.map SafeQ.set_producer_done, st.produced_count)

/-- `producer(filename, qs, num_threads)`; `file` is the content of the named file, or
`none` when it cannot be opened. -/
def producer (fuel : Nat) (uninit : Int → Int) (file : Option (List Char))
    (qs : List SafeQ) (num_threads : Nat) : Option (List SafeQ × Int) :=
  (producerLoop SafeQ.push uninit num_threads fuel (IStream.open file)
    { qs := qs, produced_count := 0, current_q := 0 }).map
    (fun st => (st.qs.map SafeQ.set_producer_done, st.produced_count))

/-- The body of the worker's loop for one popped `num` (lines 146-153), acting on the
shared counters.  When `num % 10` is no index of `number_counts` the addition of line
152 changes none of the ten buckets and is counted in `out_of_bounds`. -/
def workerBody (kernel : Int → Int) (g : Stats) (num : Int) : Stats :=
  let g1 := { g with consumed_count := g.consumed_count + 1 }
  let g2 := if kernel num = 1 then { g1 with primes := g1.primes + 1 }
            else { g1 with nonprimes := g1.nonprimes + 1 }
  let g3 := match bump g2.number_counts (digitIndex num) with
            | some counts => { g2 with number_counts := counts }
            | none => { g2 with out_of_bounds := g2.out_of_bounds + 1 }
  { g3 with sum := g3.sum + num }

/-- `worker(q, primes, nonprimes, sum, consumed_count, number_counts)`: `none` when it
has not returned within `fuel` iterations. -/
def worker (kernel : Int → Int) : Nat → SafeQ → Stats → Option (SafeQ × Stats)
  | 0, _, _ => none
  | fuel + 1, q, g =>
    match q.wait_and_pop (fuel + 1) with
    | none => none
    | some (none, q') => some (q', g)
    | some (some num, q') => worker kernel fuel q' (workerBody kernel g num)

/-- The worker threads of `main`, worker `i` on `qs[i]`, until all have been joined. -/
def runWorkers (kernel : Int → Int) (fuel : Nat) : List SafeQ → Stats → Option Stats
  | [], g => some g
  | q :: qs, g =>
    match worker kernel fuel q g with
    | none => none
    | some (_, g') => runWorkers kernel fuel qs g'

/-- `main` from the point where the producer has pushed `vals`: returns
`produced_count` and the shared statistics after the join. -/
def mainPushing (kernel : Int → Int) (fuel : Nat) (num_threads : Nat) (vals : List Int) :
    Option (Int × Stats) :=
  let p := producerPushing vals (List.replicate num_threads SafeQ.new) num_threads
  (runWorkers kernel fuel p.1 Stats.init).map (fun g => (p.2, g))

/-- `main` on a file: producer, then the workers. -/
def main (kernel : Int → Int) (fuel : Nat) (uninit : Int → Int) (file : Option (List Char))
    (num_threads : Nat) : Option (Int × Stats) :=
  match producer fuel uninit file (List.replicate num_threads SafeQ.new) num_threads with
  | none => none
  | some p => (runWorkers kernel fuel p.1 Stats.init).map (fun g => (p.2, g))

/-- The results of `calls` successive calls of `wait_and_pop` and the queue after the
last; `none` when one of the calls does not return. -/
def SafeQ.popTimes (fuel : Nat) : Nat → SafeQ → Option (List (Option Int) × SafeQ)
  | 0, s => some ([], s)
  | calls + 1, s =>
    match s.wait_and_pop fuel with
    | none => none
    | some (r, s') => (SafeQ.popTimes fuel calls s').map (fun p => (r :: p.1, p.2))

/-! ### The workers running concurrently -/

/-- One loop iteration of worker `i` while the workers run concurrently: it pops from
its own queue `qs[i]` and updates the shared counters; when there is nothing to pop
(the worker has left its loop) nothing changes.  The additions of one iteration go to
different counters and are taken together. -/
def stepWorker (kernel : Int → Int) (st : List SafeQ × Stats) (i : Nat) : List SafeQ × Stats :=
  match st.1[i]? with
  | none => st
  | some q =>
    match q.wait_and_pop 1 with
    | some (some num, q') => (st.1.set i q', workerBody kernel st.2 num)
    | _ => st

/-- The workers interleaved by a schedule: the list of the workers' indices in the
order in which their loop iterations take place. -/
def runSchedule (kernel : Int → Int) (schedule : List Nat) (st : List SafeQ × Stats) :
    List SafeQ × Stats :=
  schedule.foldl (stepWorker kernel) st

end A1Atomic

/-! ## `a1-parallel-mutex.cpp` -/

namespace A1Mutex

open A1

/-- `SafeQ<int>` of the mutex program: the `std::queue` alone (mutex and condition
variable carry no data). -/
structure SafeQ where
  q : List Int
  deriving DecidableEq, Repr

def SafeQ.new : SafeQ := { q := [] }

def SafeQ.push (s : SafeQ) (value : Int) : SafeQ := { q := s.q ++ [value] }

/-- `SafeQ::wait_and_pop`: `none` when the queue is empty, where `cv.wait` does not
return (the producer has finished, nobody will push); else the front is popped.  The
final `return nullptr` of the source is kept; it is never reached. -/
def SafeQ.wait_and_pop (s : SafeQ) : Option (Option Int × SafeQ) :=
  if s.q.isEmpty then none
  else
    match s.q with
    | value :: rest => some (some value, { q := rest })
    | [] => some (none, s)

/-- Values-level producer: the loop body applied to each pushed value in turn, then
`push(-1)` on every queue. -/
def producerPushing (vals : List Int) (qs : List SafeQ) (num_threads : Nat) :
    List SafeQ × Int :=
  let st := vals.foldl (pushStep SafeQ.push num_threads)
    { qs := qs, produced_count := 0, current_q := 0 }
  (st.qs.map (fun q => q.push (-1)), st.produced_count)

/-- `producer(filename, qs, num_threads)`. -/
def producer (fuel : Nat) (uninit : Int → Int) (file : Option (List Char))
    (qs : List SafeQ) (num_threads : Nat) : Option (List SafeQ × Int) :=
  (producerLoop SafeQ.push uninit num_threads fuel (IStream.open file)
    { qs := qs, produced_count := 0, current_q := 0 }).map
    (fun st => (st.qs.map (fun q => q.push (-1)), st.produced_count))

/-- The body of the worker's loop for one `num` (lines 172-181), acting on the worker's
local variables: `none` when `num % 10` is no index of `local_number_counts`
(undefined behaviour at line 180). -/
def workerBody (kernel : Int → Int) (l : Stats) (num : Int) : Option Stats :=
  let l1 := { l with consumed_count := l.consumed_count + 1 }
  let l2 := if kernel num = 1 then { l1 with primes := l1.primes + 1 }
            else { l1 with nonprimes := l1.nonprimes + 1 }
  match bump l2.number_counts (digitIndex num) with
  | none => none
  | some counts =>
    let l3 := { l2 with number_counts := counts }
    some { l3 with sum := l3.sum + num }

/-- What one iteration of the worker's loop leads to. -/
inductive Iteration where
  | blocked
  | exit (q : SafeQ)
  | next (q : SafeQ) (l : Stats)
  | undefinedBehaviour
  deriving DecidableEq, Repr

/-- One iteration of `while (true)` in `worker`: pop; leave the loop on `nullptr` or on
the value `-1`; otherwise update the local variables. -/
def workerIteration (kernel : Int → Int) (q : SafeQ) (l : Stats) : Iteration :=
  match q.wait_and_pop with
  | none => Iteration.blocked
  | some (none, q') => Iteration.exit q'
  | some (some num, q') =>
    if num = -1 then Iteration.exit q'
    else
      match workerBody kernel l num with
      | some l' => Iteration.next q' l'
      | none => Iteration.undefinedBehaviour

/-- The loop of `worker`, from local state `l`: the queue and the local variables at the
`break`; `noReturn` when the worker blocks for ever or `fuel` runs out. -/
def workerLoop (kernel : Int → Int) : Nat → SafeQ → Stats → Outcome (SafeQ × Stats)
  | 0, _, _ => Outcome.noReturn
  | fuel + 1, q, l =>
    match workerIteration kernel q l with
    | Iteration.blocked => Outcome.noReturn
    | Iteration.exit q' => Outcome.returned (q', l)
    | Iteration.next q' l' => workerLoop kernel fuel q' l'
    | Iteration.undefinedBehaviour => Outcome.undefinedBehaviour

/-- The merge under the lock (lines 188-195): every global variable is increased by the
local one, the histogram bucket by bucket. -/
def merge (g l : Stats) : Stats :=
  { consumed_count := g.consumed_count + l.consumed_count
    primes := g.primes + l.primes
    nonprimes := g.nonprimes + l.nonprimes
    sum := g.sum + l.sum
    number_counts := List.zipWith (· + ·) g.number_counts l.number_counts
    out_of_bounds := g.out_of_bounds + l.out_of_bounds }

/-- `worker(q, primes, nonprimes, sum, consumed_count, number_counts, mtx)`. -/
def worker (kernel : Int → Int) (fuel : Nat) (q : SafeQ) (g : Stats) :
    Outcome (SafeQ × Stats) :=
  match workerLoop kernel fuel q Stats.init with
  | Outcome.returned r => Outcome.returned (r.1, merge g r.2)
  | Outcome.noReturn => Outcome.noReturn
  | Outcome.undefinedBehaviour => Outcome.undefinedBehaviour

/-- The worker threads of `main`, worker `i` on `qs[i]`, until all have been joined. -/
def runWorkers (kernel : Int → Int) (fuel : Nat) : List SafeQ → Stats → Outcome Stats
  | [], g => Outcome.returned g
  | q :: qs, g =>
    match worker kernel fuel q g with
    | Outcome.returned r => runWorkers kernel fuel qs r.2
    | Outcome.noReturn => Outcome.noReturn
    | Outcome.undefinedBehaviour => Outcome.undefinedBehaviour

/-- The end of `main` once the workers have ended: `produced_count` and the global
statistics. -/
def report (produced_count : Int) : Outcome Stats → Outcome (Int × Stats)
  | Outcome.returned g => Outcome.returned (produced_count, g)
  | Outcome.noReturn => Outcome.noReturn
  | Outcome.undefinedBehaviour => Outcome.undefinedBehaviour

/-- `main` from the point where the producer has pushed `vals`. -/
def mainPushing (kernel : Int → Int) (fuel : Nat) (num_threads : Nat) (vals : List Int) :
    Outcome (Int × Stats) :=
  let p := producerPushing vals (List.replicate num_threads SafeQ.new) num_threads
  report p.2 (runWorkers kernel fuel p.1 Stats.init)

/-- `main` on a file: producer, then the workers. -/
def main (kernel : Int → Int) (fuel : Nat) (uninit : Int → Int) (file : Option (List Char))
    (num_threads : Nat) : Outcome (Int × Stats) :=
  match producer fuel uninit file (List.replicate num_threads SafeQ.new) num_threads with
  | none => Outcome.noReturn
  | some p => report p.2 (runWorkers kernel fuel p.1 Stats.init)

end A1Mutex

/-! # Theorems -/

/-! ## Round-robin distribution -/

namespace A1

theorem shard_append (n j : Nat) (vals : List Int) (v : Int) :
    shard n j (vals ++ [v])
      = shard n j vals ++ (if vals.length % n = j then [v] else []) := by
  simp only [shard, List.enum_append, List.filter_append, List.map_append]
  by_cases h : vals.length % n = j <;> simp [List.enumFrom, h, List.filter]

theorem shard_length_le (n j : Nat) (vals : List Int) :
    (shard n j vals).length ≤ vals.length := by
  simp only [shard, List.length_map]
  exact (List.length_filter_le _ _).trans (by simp)

/-- The state of the producer after its loop has pushed `vals`, for a queue type whose
states are determined by their content (`mk`). -/
theorem foldl_pushStep {Q : Type} (push : Q → Int → Q) (mk : List Int → Q)
    (hmk : ∀ l v, push (mk l) v = mk (l ++ [v])) (n : Nat) (hn : 0 < n) (vals : List Int) :
    vals.foldl (pushStep push n)
        { qs := List.replicate n (mk []), produced_count := 0, current_q := 0 }
      = { qs := (List.range n).map (fun j => mk (shard n j vals))
          produced_count := vals.length
          current_q := vals.length % n } := by
  induction vals using List.reverseRecOn with
  | nil =>
    simp only [List.foldl_nil, List.length_nil, Nat.zero_mod, Nat.cast_zero]
    congr 1
    apply List.ext_getElem
    · simp
    · intro i h1 h2
      simp [shard]
  | append_singleton vals v ih =>
    rw [List.foldl_append, ih]
    simp only [List.foldl_cons, List.foldl_nil, pushStep, List.length_append, List.length_singleton]
    congr 1
    · apply List.ext_getElem?
      intro i
      rw [List.getElem?_modify]
      by_cases hi : i < n
      · by_cases hk : vals.length % n = i
        · simp [hi, hk, shard_append, hmk]
        · simp [hi, hk, shard_append]
      · have hk : vals.length % n ≠ i := fun h => hi (h ▸ Nat.mod_lt _ hn)
        have hnone : (List.range n)[i]? = none := by
          rw [List.getElem?_eq_none_iff]; simp; omega
        simp [hk, hnone]
    · exact Nat.mod_add_mod ..

end A1

namespace A1

theorem flatten_map_append_ite (f : Nat → List Int) (k : Nat) (v : Int) (js : List Nat)
    (hnd : js.Nodup) (hk : k ∈ js) :
    ((js.map (fun j => f j ++ if k = j then [v] else [])).flatten).Perm
      (v :: (js.map f).flatten) := by
  induction js with
  | nil => simp at hk
  | cons j js ih =>
    rw [List.nodup_cons] at hnd
    by_cases hkj : k = j
    · subst hkj
      have hrest : js.map (fun j => f j ++ if k = j then [v] else []) = js.map f := by
        apply List.map_congr_left
        intro a ha
        have : k ≠ a := fun h => hnd.1 (h ▸ ha)
        simp [this]
      simp only [List.map_cons, List.flatten_cons, hrest, if_true, List.append_assoc]
      exact List.perm_middle
    · have hk' : k ∈ js := by
        rcases List.mem_cons.1 hk with h | h
        · exact absurd h hkj
        · exact h
      simp only [List.map_cons, List.flatten_cons, hkj, if_false, List.append_nil]
      exact ((ih hnd.2 hk').append_left (f j)).trans List.perm_middle

/-- The shards together hold exactly the pushed values. -/
theorem shards_perm (n : Nat) (hn : 0 < n) (vals : List Int) :
    (((List.range n).map (fun j => shard n j vals)).flatten).Perm vals := by
  induction vals using List.reverseRecOn with
  | nil =>
    have : (List.range n).map (fun j => shard n j []) = (List.range n).map (fun _ => []) := by
      apply List.map_congr_left; intro a _; rfl
    rw [this]
    simp
  | append_singleton vals v ih =>
    have hmap : (List.range n).map (fun j => shard n j (vals ++ [v]))
        = (List.range n).map
            (fun j => shard n j vals ++ if vals.length % n = j then [v] else []) := by
      apply List.map_congr_left; intro a _; exact shard_append n a vals v
    rw [hmap]
    refine (flatten_map_append_ite (fun j => shard n j vals) (vals.length % n) v (List.range n)
      (List.nodup_range n) (List.mem_range.2 (Nat.mod_lt _ hn))).trans ?_
    exact ((List.Perm.cons v ih).trans (List.perm_append_singleton v vals).symm)

theorem bump_length {c c' : List Int} {i : Int} (h : bump c i = some c') :
    c'.length = c.length := by
  unfold bump at h
  split at h
  · cases h; simp
  · cases h

theorem modify_succ_comm (c : List Int) (i j : Nat) :
    List.modify (· + 1) j (List.modify (· + 1) i c)
      = List.modify (· + 1) i (List.modify (· + 1) j c) := by
  by_cases h : i = j
  · subst h; rfl
  · exact List.modify_modify_ne _ _ _ h

theorem bump_some {c : List Int} {i : Int} (h : 0 ≤ i ∧ i < c.length) :
    bump c i = some (List.modify (· + 1) i.toNat c) := by
  simp [bump, h]

theorem bump_none {c : List Int} {i : Int} (h : ¬ (0 ≤ i ∧ i < c.length)) :
    bump c i = none := by
  simp [bump, h]

end A1

namespace A1Atomic
open A1

/-- The histogram part of the loop body: the line
`number_counts[num % 10].fetch_add(1, ...)`. -/
theorem workerBody_counts (kernel : Int → Int) (g : Stats) (v : Int) :
    ((workerBody kernel g v).number_counts, (workerBody kernel g v).out_of_bounds)
      = match bump g.number_counts (digitIndex v) with
        | some counts => (counts, g.out_of_bounds)
        | none => (g.number_counts, g.out_of_bounds + 1) := by
  by_cases hk : kernel v = 1 <;>
    cases hb : bump g.number_counts (digitIndex v) <;> simp [workerBody, hk, hb]

theorem workerBody_scalars (kernel : Int → Int) (g : Stats) (v : Int) :
    (workerBody kernel g v).consumed_count = g.consumed_count + 1
      ∧ (workerBody kernel g v).sum = g.sum + v
      ∧ (workerBody kernel g v).primes = (if kernel v = 1 then g.primes + 1 else g.primes)
      ∧ (workerBody kernel g v).nonprimes
          = (if kernel v = 1 then g.nonprimes else g.nonprimes + 1) := by
  by_cases hk : kernel v = 1 <;>
    cases hb : bump g.number_counts (digitIndex v) <;> simp [workerBody, hk, hb]

theorem stats_ext (s t : Stats) (h1 : s.primes = t.primes) (h2 : s.nonprimes = t.nonprimes)
    (h3 : s.sum = t.sum) (h4 : s.consumed_count = t.consumed_count)
    (h5 : (s.number_counts, s.out_of_bounds) = (t.number_counts, t.out_of_bounds)) :
    s = t := by
  cases s; cases t
  simp only [Prod.mk.injEq] at h5
  simp_all

theorem workerBody_length (kernel : Int → Int) (g : Stats) (v : Int) :
    (workerBody kernel g v).number_counts.length = g.number_counts.length := by
  have h := congrArg Prod.fst (workerBody_counts kernel g v)
  simp only at h
  rw [h]
  cases hb : bump g.number_counts (digitIndex v) with
  | none => rfl
  | some c => exact bump_length hb

theorem workerBody_comm (kernel : Int → Int) (g : Stats) (a b : Int) :
    workerBody kernel (workerBody kernel g a) b = workerBody kernel (workerBody kernel g b) a := by
  obtain ⟨a1, a2, a3, a4⟩ := workerBody_scalars kernel g a
  obtain ⟨b1, b2, b3, b4⟩ := workerBody_scalars kernel g b
  obtain ⟨ab1, ab2, ab3, ab4⟩ := workerBody_scalars kernel (workerBody kernel g a) b
  obtain ⟨ba1, ba2, ba3, ba4⟩ := workerBody_scalars kernel (workerBody kernel g b) a
  apply stats_ext
  · rw [ab3, ba3, a3, b3]; by_cases ha : kernel a = 1 <;> by_cases hb : kernel b = 1 <;>
      simp [ha, hb]
  · rw [ab4, ba4, a4, b4]; by_cases ha : kernel a = 1 <;> by_cases hb : kernel b = 1 <;>
      simp [ha, hb]
  · rw [ab2, ba2, a2, b2]; ring
  · rw [ab1, ba1, a1, b1]
  · rw [workerBody_counts kernel (workerBody kernel g a) b,
      workerBody_counts kernel (workerBody kernel g b) a]
    have ha := workerBody_counts kernel g a
    have hb := workerBody_counts kernel g b
    by_cases hi : 0 ≤ digitIndex a ∧ digitIndex a < g.number_counts.length <;>
      by_cases hj : 0 ≤ digitIndex b ∧ digitIndex b < g.number_counts.length
    · rw [bump_some hi] at ha
      rw [bump_some hj] at hb
      simp only [Prod.mk.injEq] at ha hb
      have hj' : 0 ≤ digitIndex b ∧ digitIndex b
          < ((List.modify (· + 1) (digitIndex a).toNat g.number_counts).length : Int) := by
        simpa using hj
      have hi' : 0 ≤ digitIndex a ∧ digitIndex a
          < ((List.modify (· + 1) (digitIndex b).toNat g.number_counts).length : Int) := by
        simpa using hi
      rw [ha.1, ha.2, hb.1, hb.2, bump_some hj', bump_some hi', modify_succ_comm]
    · rw [bump_some hi] at ha
      rw [bump_none hj] at hb
      simp only [Prod.mk.injEq] at ha hb
      have hj' : ¬ (0 ≤ digitIndex b ∧ digitIndex b
          < ((List.modify (· + 1) (digitIndex a).toNat g.number_counts).length : Int)) := by
        simpa using hj
      rw [ha.1, ha.2, hb.1, hb.2, bump_none hj', bump_some hi]
    · rw [bump_none hi] at ha
      rw [bump_some hj] at hb
      simp only [Prod.mk.injEq] at ha hb
      have hi' : ¬ (0 ≤ digitIndex a ∧ digitIndex a
          < ((List.modify (· + 1) (digitIndex b).toNat g.number_counts).length : Int)) := by
        simpa using hi
      rw [ha.1, ha.2, hb.1, hb.2, bump_some hj, bump_none hi']
    · rw [bump_none hi] at ha
      rw [bump_none hj] at hb
      simp only [Prod.mk.injEq] at ha hb
      rw [ha.1, ha.2, hb.1, hb.2, bump_none hi, bump_none hj]

/-- The shared counters are only added to, so the statistics do not depend on the order
in which the items are processed. -/
theorem foldl_workerBody_perm (kernel : Int → Int) {l₁ l₂ : List Int} (h : l₁.Perm l₂)
    (g : Stats) : l₁.foldl (workerBody kernel) g = l₂.foldl (workerBody kernel) g := by
  haveI : RightCommutative (workerBody kernel) := ⟨workerBody_comm kernel⟩
  exact h.foldl_eq g

end A1Atomic

namespace A1Atomic
open A1

/-! ### The queue of the atomic program -/

theorem SafeQ.wait_and_pop_cons (fuel : Nat) (s : SafeQ) (v : Int) (rest : List Int)
    (h : s.q = v :: rest) :
    s.wait_and_pop (fuel + 1) = some (some v, { s with q := rest }) := by
  simp [SafeQ.wait_and_pop, h]

theorem SafeQ.wait_and_pop_done (fuel : Nat) (s : SafeQ) (hq : s.q = [])
    (hd : s.producer_done = true) :
    s.wait_and_pop (fuel + 1) = some (none, s) := by
  simp [SafeQ.wait_and_pop, hq, SafeQ.is_producer_done, hd]

theorem SafeQ.wait_and_pop_spin (fuel : Nat) (s : SafeQ) (hq : s.q = [])
    (hd : s.producer_done = false) :
    s.wait_and_pop fuel = none := by
  induction fuel with
  | zero => rfl
  | succ n ih => simp [SafeQ.wait_and_pop, hq, SafeQ.is_producer_done, hd, ih]

theorem SafeQ.wait_and_pop_eos (fuel : Nat) (s s' : SafeQ)
    (h : s.wait_and_pop fuel = some (none, s')) :
    s.q = [] ∧ s.producer_done = true ∧ s' = s := by
  cases fuel with
  | zero => simp [SafeQ.wait_and_pop] at h
  | succ n =>
    cases hq : s.q with
    | cons v rest => simp [SafeQ.wait_and_pop, hq] at h
    | nil =>
      cases hd : s.producer_done with
      | false => rw [SafeQ.wait_and_pop_spin _ s hq hd] at h; cases h
      | true =>
        rw [SafeQ.wait_and_pop_done n s hq hd] at h
        simp at h
        exact ⟨rfl, rfl, h.symm⟩

theorem foldl_push (items : List Int) (s : SafeQ) :
    items.foldl SafeQ.push s = { s with q := s.q ++ items } := by
  induction items generalizing s with
  | nil => simp
  | cons a as ih => simp [ih, SafeQ.push]

theorem SafeQ.popTimes_closed (fuel : Nat) (items : List Int) (extra : Nat) :
    SafeQ.popTimes (fuel + 1) (items.length + extra) { q := items, producer_done := true }
      = some (items.map some ++ List.replicate extra none, { q := [], producer_done := true }) := by
  induction items with
  | nil =>
    induction extra with
    | zero => rfl
    | succ n ih =>
      simp only [List.length_nil, Nat.zero_add] at ih ⊢
      simp [SafeQ.popTimes, SafeQ.wait_and_pop, SafeQ.is_producer_done, ih, List.replicate_succ]
  | cons a as ih =>
    have e : (a :: as).length + extra = (as.length + extra) + 1 := by simp; omega
    rw [e]
    simp [SafeQ.popTimes, SafeQ.wait_and_pop, ih]

/-! ### Producer and workers of the atomic program -/

theorem producerPushing_eq (n : Nat) (hn : 0 < n) (vals : List Int) :
    producerPushing vals (List.replicate n SafeQ.new) n
      = ((List.range n).map (fun j => ({ q := shard n j vals, producer_done := true } : SafeQ)),
          (vals.length : Int)) := by
  have h := foldl_pushStep SafeQ.push (fun l => ({ q := l, producer_done := false } : SafeQ))
    (fun l v => rfl) n hn vals
  simp only [producerPushing]
  have e : SafeQ.new = ({ q := [], producer_done := false } : SafeQ) := rfl
  rw [e, h]
  simp [SafeQ.set_producer_done]

theorem worker_closed (kernel : Int → Int) (items : List Int) (g : Stats) (fuel : Nat)
    (h : items.length < fuel) :
    worker kernel fuel { q := items, producer_done := true } g
      = some ({ q := [], producer_done := true }, items.foldl (workerBody kernel) g) := by
  induction items generalizing g fuel with
  | nil =>
    cases fuel with
    | zero => simp at h
    | succ f => simp [worker, SafeQ.wait_and_pop, SafeQ.is_producer_done]
  | cons a as ih =>
    cases fuel with
    | zero => simp at h
    | succ f =>
      have h' : as.length < f := by simpa using h
      simp [worker, SafeQ.wait_and_pop, ih _ f h']

theorem runWorkers_closed (kernel : Int → Int) (fuel : Nat) (qss : List (List Int))
    (h : ∀ l ∈ qss, l.length < fuel) (g : Stats) :
    runWorkers kernel fuel (qss.map (fun l => ({ q := l, producer_done := true } : SafeQ))) g
      = some (qss.flatten.foldl (workerBody kernel) g) := by
  induction qss generalizing g with
  | nil => rfl
  | cons l ls ih =>
    have hl : l.length < fuel := h l (List.mem_cons_self _ _)
    have hls : ∀ l' ∈ ls, l'.length < fuel := fun l' hl' => h l' (List.mem_cons_of_mem _ hl')
    simp [runWorkers, worker_closed kernel l g fuel hl, ih hls, List.foldl_append]

/-- The atomic program after the join: `produced_count` is the number of pushed values
and the shared statistics are the per-item update folded over the pushed values. -/
theorem mainPushing_eq (kernel : Int → Int) (fuel n : Nat) (vals : List Int)
    (hn : 0 < n) (hfuel : vals.length < fuel) :
    mainPushing kernel fuel n vals
      = some ((vals.length : Int), vals.foldl (workerBody kernel) Stats.init) := by
  simp only [mainPushing, producerPushing_eq n hn vals]
  have hmap : (List.range n).map (fun j => ({ q := shard n j vals, producer_done := true } : SafeQ))
      = ((List.range n).map (fun j => shard n j vals)).map
          (fun l => ({ q := l, producer_done := true } : SafeQ)) := by
    simp
  rw [hmap, runWorkers_closed]
  · simp only [Option.map_some']
    rw [foldl_workerBody_perm kernel (shards_perm n hn vals)]
  · intro l hl
    rcases List.mem_map.1 hl with ⟨j, _, rfl⟩
    exact lt_of_le_of_lt (shard_length_le n j vals) hfuel

/-- The atomic program on the values `7, -3, 10`: whatever the thread count, three items
are consumed, the buckets for the last digits 7 and 0 are incremented, and the addition
for `-3` lands outside the vector. -/
theorem mainPushing_example :
    (∀ n ∈ [1, 2, 3, 16], mainPushing isPrimeKernel 4 n [7, -3, 10]
      = some (3, { primes := 1, nonprimes := 2, sum := 14, consumed_count := 3,
                   number_counts := [1, 0, 0, 0, 0, 0, 0, 1, 0, 0], out_of_bounds := 1 })) := by
  decide

theorem foldl_workerBody_consumed (kernel : Int → Int) (vals : List Int) (g : Stats) :
    (vals.foldl (workerBody kernel) g).consumed_count = g.consumed_count + vals.length := by
  induction vals generalizing g with
  | nil => simp
  | cons a as ih =>
    simp only [List.foldl_cons, ih, List.length_cons, (workerBody_scalars kernel g a).1]
    push_cast
    ring

end A1Atomic

namespace A1

theorem digitIndex_lt (v : Int) : digitIndex v < 10 :=
  Int.tmod_lt_of_pos _ (by decide)

end A1

namespace A1Mutex
open A1

/-! ### Worker and merge of the mutex program -/

/-- Where `num % 10` is an index of the histogram the loop body of the mutex worker
does to its local variables what the loop body of the atomic worker does to the shared
ones. -/
theorem workerBody_of_index (kernel : Int → Int) (l : Stats) (v : Int)
    (hl : l.TenBuckets) (hv : 0 ≤ digitIndex v) :
    workerBody kernel l v = some (A1Atomic.workerBody kernel l v) := by
  have hlt := digitIndex_lt v
  have hidx : 0 ≤ digitIndex v ∧ digitIndex v < (l.number_counts.length : Int) := by
    unfold Stats.TenBuckets at hl
    rw [hl]
    exact ⟨hv, by simpa using hlt⟩
  by_cases hk : kernel v = 1 <;>
    simp [workerBody, A1Atomic.workerBody, hk, bump_some hidx]

/-- Where `num % 10` is negative the loop body of the mutex worker has no defined
result. -/
theorem workerBody_of_negative (kernel : Int → Int) (l : Stats) (v : Int)
    (hv : digitIndex v < 0) : workerBody kernel l v = none := by
  have hidx : ¬ (0 ≤ digitIndex v ∧ digitIndex v < (l.number_counts.length : Int)) := by
    omega
  by_cases hk : kernel v = 1 <;> simp [workerBody, hk, bump_none hidx]

theorem zipWith_modify (gc lc : List Int) (k : Nat) :
    List.zipWith (· + ·) gc (List.modify (· + 1) k lc)
      = List.modify (· + 1) k (List.zipWith (· + ·) gc lc) := by
  induction gc generalizing lc k with
  | nil => simp
  | cons a as ih =>
    cases lc with
    | nil => simp
    | cons b bs =>
      cases k with
      | zero => simp [add_assoc]
      | succ k => simp [ih]

theorem zipWith_zero (gc : List Int) :
    List.zipWith (· + ·) gc (List.replicate gc.length 0) = gc := by
  induction gc with
  | nil => rfl
  | cons a as ih => simp [List.replicate_succ, ih]

theorem tenBuckets_init : Stats.init.TenBuckets := by
  simp [Stats.TenBuckets, Stats.init]

theorem tenBuckets_workerBody (kernel : Int → Int) (l : Stats) (v : Int)
    (h : l.TenBuckets) : (A1Atomic.workerBody kernel l v).TenBuckets := by
  unfold Stats.TenBuckets at h ⊢
  rw [A1Atomic.workerBody_length, h]

theorem tenBuckets_foldl (kernel : Int → Int) (items : List Int) (l : Stats)
    (h : l.TenBuckets) : (items.foldl (A1Atomic.workerBody kernel) l).TenBuckets := by
  induction items generalizing l with
  | nil => exact h
  | cons a as ih => exact ih _ (tenBuckets_workerBody kernel l a h)

theorem merge_init (g : Stats) (h : g.TenBuckets) : merge g Stats.init = g := by
  cases g with
  | mk p np s c nc ob =>
    have hlen : nc.length = 10 := h
    have hz := zipWith_zero nc
    rw [hlen] at hz
    have hr : List.replicate 10 (0 : Int) = [0, 0, 0, 0, 0, 0, 0, 0, 0, 0] := rfl
    rw [hr] at hz
    simp [merge, Stats.init, hz]

theorem merge_workerBody (kernel : Int → Int) (g l : Stats) (v : Int)
    (hg : g.TenBuckets) (hl : l.TenBuckets) :
    merge g (A1Atomic.workerBody kernel l v) = A1Atomic.workerBody kernel (merge g l) v := by
  obtain ⟨l1, l2, l3, l4⟩ := A1Atomic.workerBody_scalars kernel l v
  obtain ⟨m1, m2, m3, m4⟩ := A1Atomic.workerBody_scalars kernel (merge g l) v
  have hlc := A1Atomic.workerBody_counts kernel l v
  have hmc := A1Atomic.workerBody_counts kernel (merge g l) v
  have hgl : g.number_counts.length = 10 := hg
  have hll : l.number_counts.length = 10 := hl
  have hml : (merge g l).number_counts.length = 10 := by simp [merge, hgl, hll]
  apply A1Atomic.stats_ext
  · rw [m3]; by_cases hk : kernel v = 1 <;> simp [merge, l3, hk, add_assoc]
  · rw [m4]; by_cases hk : kernel v = 1 <;> simp [merge, l4, hk, add_assoc]
  · rw [m2]; simp [merge, l2, add_assoc]
  · rw [m1]; simp [merge, l1, add_assoc]
  · rw [hmc]
    by_cases hv : 0 ≤ digitIndex v ∧ digitIndex v < ((10 : Nat) : Int)
    · have h1 : 0 ≤ digitIndex v ∧ digitIndex v < (l.number_counts.length : Int) := by
        rw [hll]; exact hv
      have h2 : 0 ≤ digitIndex v ∧ digitIndex v < ((merge g l).number_counts.length : Int) := by
        rw [hml]; exact hv
      rw [bump_some h1] at hlc
      simp only [Prod.mk.injEq] at hlc
      rw [bump_some h2]
      simp only [merge, hlc.1, hlc.2, zipWith_modify]
    · have h1 : ¬ (0 ≤ digitIndex v ∧ digitIndex v < (l.number_counts.length : Int)) := by
        rw [hll]; exact hv
      have h2 : ¬ (0 ≤ digitIndex v
          ∧ digitIndex v < ((merge g l).number_counts.length : Int)) := by
        rw [hml]; exact hv
      rw [bump_none h1] at hlc
      simp only [Prod.mk.injEq] at hlc
      rw [bump_none h2]
      simp only [merge, hlc.1, hlc.2, add_assoc]

theorem merge_foldl (kernel : Int → Int) (items : List Int) (g l : Stats)
    (hg : g.TenBuckets) (hl : l.TenBuckets) :
    merge g (items.foldl (A1Atomic.workerBody kernel) l)
      = items.foldl (A1Atomic.workerBody kernel) (merge g l) := by
  induction items generalizing l with
  | nil => rfl
  | cons a as ih =>
    simp only [List.foldl_cons]
    rw [ih _ (tenBuckets_workerBody kernel l a hl), merge_workerBody kernel g l a hg hl]

/-- The loop of the worker stops at the first `-1` of its queue: the values before it
(whose `num % 10` are indices of the histogram) have been processed, the values after
it stay in the queue. -/
theorem workerLoop_sentinel (kernel : Int → Int) (items rest : List Int) (l : Stats)
    (fuel : Nat) (hs : (-1 : Int) ∉ items) (hd : ∀ v ∈ items, 0 ≤ digitIndex v)
    (hl : l.TenBuckets) (hfuel : items.length < fuel) :
    workerLoop kernel fuel { q := items ++ (-1) :: rest } l
      = Outcome.returned ({ q := rest }, items.foldl (A1Atomic.workerBody kernel) l) := by
  induction items generalizing l fuel with
  | nil =>
    cases fuel with
    | zero => simp at hfuel
    | succ f => simp [workerLoop, workerIteration, SafeQ.wait_and_pop]
  | cons a as ih =>
    cases fuel with
    | zero => simp at hfuel
    | succ f =>
      have ha : a ≠ -1 := fun h => hs (h ▸ List.mem_cons_self _ _)
      have has : (-1 : Int) ∉ as := fun h => hs (List.mem_cons_of_mem _ h)
      have hf : as.length < f := by simpa using hfuel
      have hb := workerBody_of_index kernel l a hl (hd a (List.mem_cons_self _ _))
      have ih' := ih (A1Atomic.workerBody kernel l a) f has
        (fun v hv => hd v (List.mem_cons_of_mem _ hv)) (tenBuckets_workerBody kernel l a hl) hf
      simp [workerLoop, workerIteration, SafeQ.wait_and_pop, ha, hb, ih']

/-- A value whose `num % 10` is negative, met before any `-1`, ends the worker in
undefined behaviour. -/
theorem workerLoop_undefined (kernel : Int → Int) (items rest : List Int) (bad : Int)
    (l : Stats) (fuel : Nat) (hs : (-1 : Int) ∉ items) (hd : ∀ v ∈ items, 0 ≤ digitIndex v)
    (hbad : digitIndex bad < 0) (hbad1 : bad ≠ -1)
    (hl : l.TenBuckets) (hfuel : items.length < fuel) :
    workerLoop kernel fuel { q := items ++ bad :: rest } l = Outcome.undefinedBehaviour := by
  induction items generalizing l fuel with
  | nil =>
    cases fuel with
    | zero => simp at hfuel
    | succ f =>
      simp [workerLoop, workerIteration, SafeQ.wait_and_pop, hbad1,
        workerBody_of_negative kernel l bad hbad]
  | cons a as ih =>
    cases fuel with
    | zero => simp at hfuel
    | succ f =>
      have ha : a ≠ -1 := fun h => hs (h ▸ List.mem_cons_self _ _)
      have has : (-1 : Int) ∉ as := fun h => hs (List.mem_cons_of_mem _ h)
      have hf : as.length < f := by simpa using hfuel
      have hb := workerBody_of_index kernel l a hl (hd a (List.mem_cons_self _ _))
      have ih' := ih (A1Atomic.workerBody kernel l a) f has
        (fun v hv => hd v (List.mem_cons_of_mem _ hv)) (tenBuckets_workerBody kernel l a hl) hf
      simp [workerLoop, workerIteration, SafeQ.wait_and_pop, ha, hb, ih']

theorem mutex_producerPushing_eq (n : Nat) (hn : 0 < n) (vals : List Int) :
    producerPushing vals (List.replicate n SafeQ.new) n
      = ((List.range n).map (fun j => ({ q := shard n j vals ++ [-1] } : SafeQ)),
          (vals.length : Int)) := by
  have h := foldl_pushStep SafeQ.push (fun l => ({ q := l } : SafeQ)) (fun l v => rfl) n hn vals
  simp only [producerPushing]
  have e : SafeQ.new = ({ q := [] } : SafeQ) := rfl
  rw [e, h]
  simp [SafeQ.push]

end A1Mutex

namespace A1
open A1

/-! ### The read loop of the producer -/

/-- Whatever the loop of the producer does on a stream, it is the loop body applied to
some sequence of values, one per iteration. -/
theorem producerLoop_pushes {Q : Type} (push : Q → Int → Q) (uninit : Int → Int) (n : Nat)
    (fuel : Nat) (ifs : IStream) (st st' : ProducerState Q)
    (h : producerLoop push uninit n fuel ifs st = some st') :
    ∃ vals : List Int, vals.length < fuel ∧ st' = vals.foldl (pushStep push n) st := by
  induction fuel generalizing ifs st with
  | zero => simp [producerLoop] at h
  | succ f ih =>
    rw [producerLoop] at h
    by_cases he : ifs.eof = true
    · simp only [he, if_true, Option.some.injEq] at h
      exact ⟨[], by simp, h.symm⟩
    · simp only [he] at h
      obtain ⟨vals, hlen, hst⟩ := ih _ _ h
      exact ⟨_ :: vals, by simpa using hlen, hst⟩

/-- Once `failbit` is set without `eofbit`, every later read fails without setting
`eofbit`, and the loop `while (!ifs.eof())` never ends. -/
theorem producerLoop_stuck {Q : Type} (push : Q → Int → Q) (uninit : Int → Int) (n : Nat)
    (fuel : Nat) (ifs : IStream) (st : ProducerState Q)
    (he : ifs.eofbit = false) (hf : ifs.failbit = true) :
    producerLoop push uninit n fuel ifs st = none := by
  induction fuel generalizing st with
  | zero => rfl
  | succ f ih =>
    have hx : ifs.extractInt = (none, ifs) := by
      cases ifs with
      | mk buf e f' =>
        simp only at he hf
        subst he hf
        simp [IStream.extractInt, IStream.good]
    rw [producerLoop]
    simp only [IStream.eof, he, hx]
    exact ih _

end A1

namespace A1Atomic
open A1

theorem producer_pushes (fuel : Nat) (uninit : Int → Int) (file : Option (List Char))
    (qs : List SafeQ) (n : Nat) (r : List SafeQ × Int)
    (h : producer fuel uninit file qs n = some r) :
    ∃ vals : List Int, vals.length < fuel ∧ r = producerPushing vals qs n := by
  simp only [producer, Option.map_eq_some'] at h
  obtain ⟨st, hst, hr⟩ := h
  obtain ⟨vals, hlen, hfold⟩ := producerLoop_pushes _ _ _ _ _ _ _ hst
  exact ⟨vals, hlen, by rw [← hr, hfold]; rfl⟩

end A1Atomic

namespace A1Mutex
open A1

theorem exists_sentinel_split (l : List Int) :
    ∃ pre rest, l ++ [-1] = pre ++ (-1) :: rest ∧ (-1 : Int) ∉ pre
      ∧ pre.length ≤ l.length ∧ ∀ x ∈ pre, x ∈ l := by
  induction l with
  | nil => exact ⟨[], [], rfl, by simp, by simp, by simp⟩
  | cons a as ih =>
    by_cases ha : a = -1
    · exact ⟨[], as ++ [-1], by simp [ha], by simp, by simp, by simp⟩
    · obtain ⟨pre, rest, h1, h2, h3, h4⟩ := ih
      refine ⟨a :: pre, rest, by simp [h1], ?_, by simpa using h3, ?_⟩
      · intro hm
        rcases List.mem_cons.1 hm with h | h
        · exact ha h.symm
        · exact h2 h
      · intro x hx
        rcases List.mem_cons.1 hx with h | h
        · exact h ▸ List.mem_cons_self _ _
        · exact List.mem_cons_of_mem _ (h4 x h)

theorem foldl_invariant (kernel : Int → Int) (P : Stats → Prop)
    (hbody : ∀ l v, P l → P (A1Atomic.workerBody kernel l v)) (items : List Int) (l : Stats)
    (hl : P l) : P (items.foldl (A1Atomic.workerBody kernel) l) := by
  induction items generalizing l with
  | nil => exact hl
  | cons a as ih => exact ih _ (hbody l a hl)

/-- The workers of the mutex program, on queues that end in `-1` and whose values other
than `-1` have a non-negative `num % 10`, all return, and a property of statistics that
holds initially and is kept by the loop body and by the merge holds for the result. -/
theorem mutex_runWorkers_invariant (kernel : Int → Int) (P : Stats → Prop)
    (hinit : P Stats.init)
    (hbody : ∀ l v, P l → P (A1Atomic.workerBody kernel l v))
    (hmerge : ∀ g l, P g → P l → P (merge g l))
    (fuel : Nat) (qss : List (List Int))
    (h : ∀ l ∈ qss, l.length < fuel ∧ ∀ v ∈ l, v = -1 ∨ 0 ≤ digitIndex v) (g : Stats)
    (hg : P g) :
    ∃ g', runWorkers kernel fuel (qss.map (fun l => ({ q := l ++ [-1] } : SafeQ))) g
        = Outcome.returned g' ∧ P g' := by
  induction qss generalizing g with
  | nil => exact ⟨g, rfl, hg⟩
  | cons l ls ih =>
    obtain ⟨pre, rest, hsplit, hpre, hlen, hsub⟩ := exists_sentinel_split l
    obtain ⟨hl, hvals⟩ := h l (List.mem_cons_self _ _)
    have hd : ∀ v ∈ pre, 0 ≤ digitIndex v := by
      intro v hv
      rcases hvals v (hsub v hv) with h1 | h1
      · exact absurd (h1 ▸ hv) hpre
      · exact h1
    have hloop := workerLoop_sentinel kernel pre rest Stats.init fuel hpre hd tenBuckets_init
      (lt_of_le_of_lt hlen hl)
    have hP : P (merge g (pre.foldl (A1Atomic.workerBody kernel) Stats.init)) :=
      hmerge g _ hg (foldl_invariant kernel P hbody pre Stats.init hinit)
    obtain ⟨g', hrun, hg'⟩ := ih (fun l' hl' => h l' (List.mem_cons_of_mem _ hl')) _ hP
    refine ⟨g', ?_, hg'⟩
    simp only [List.map_cons, runWorkers, worker, hsplit, hloop]
    exact hrun

theorem runWorkers_sentinel (kernel : Int → Int) (fuel : Nat) (qss : List (List Int))
    (h : ∀ l ∈ qss, (-1 : Int) ∉ l ∧ (∀ v ∈ l, 0 ≤ digitIndex v) ∧ l.length < fuel)
    (g : Stats) (hg : g.TenBuckets) :
    runWorkers kernel fuel (qss.map (fun l => ({ q := l ++ [-1] } : SafeQ))) g
      = Outcome.returned (qss.flatten.foldl (A1Atomic.workerBody kernel) g) := by
  induction qss generalizing g with
  | nil => rfl
  | cons l ls ih =>
    obtain ⟨hs, hd, hl⟩ := h l (List.mem_cons_self _ _)
    have hloop := workerLoop_sentinel kernel l [] Stats.init fuel hs hd tenBuckets_init hl
    have hm : merge g (l.foldl (A1Atomic.workerBody kernel) Stats.init)
        = l.foldl (A1Atomic.workerBody kernel) g := by
      rw [merge_foldl kernel l g Stats.init hg tenBuckets_init, merge_init g hg]
    simp only [List.map_cons, runWorkers, worker, hloop, hm, List.flatten_cons,
      List.foldl_append]
    exact ih (fun l' hl' => h l' (List.mem_cons_of_mem _ hl')) _ (tenBuckets_foldl kernel l g hg)

/-- The mutex program on values that are not `-1` and whose `num % 10` is not negative:
`produced_count` is the number of pushed values and the global statistics are the
per-item update folded over them. -/
theorem mutex_mainPushing_eq (kernel : Int → Int) (fuel n : Nat) (vals : List Int)
    (hn : 0 < n) (hfuel : vals.length < fuel) (hs : (-1 : Int) ∉ vals)
    (hd : ∀ v ∈ vals, 0 ≤ digitIndex v) :
    mainPushing kernel fuel n vals
      = Outcome.returned ((vals.length : Int),
          vals.foldl (A1Atomic.workerBody kernel) Stats.init) := by
  simp only [mainPushing, mutex_producerPushing_eq n hn vals]
  have hmap : (List.range n).map (fun j => ({ q := shard n j vals ++ [-1] } : SafeQ))
      = ((List.range n).map (fun j => shard n j vals)).map
          (fun l => ({ q := l ++ [-1] } : SafeQ)) := by
    simp
  have hmem : ∀ l ∈ (List.range n).map (fun j => shard n j vals), ∀ v ∈ l, v ∈ vals :=
    fun l hl v hv => (shards_perm n hn vals).mem_iff.1 (List.mem_flatten.2 ⟨l, hl, hv⟩)
  rw [hmap, runWorkers_sentinel _ _ _ _ _ tenBuckets_init]
  · simp only [report]
    rw [A1Atomic.foldl_workerBody_perm kernel (shards_perm n hn vals)]
  · intro l hl
    refine ⟨fun hm => hs (hmem l hl _ hm), fun v hv => hd v (hmem l hl v hv), ?_⟩
    rcases List.mem_map.1 hl with ⟨j, _, rfl⟩
    exact lt_of_le_of_lt (shard_length_le n j vals) hfuel

end A1Mutex

namespace A1
open A1

/-! ### The histogram on values with a non-negative last digit -/

theorem sum_modify_succ (c : List Int) (k : Nat) (h : k < c.length) :
    (List.modify (· + 1) k c).sum = c.sum + 1 := by
  induction c generalizing k with
  | nil => simp at h
  | cons a as ih =>
    cases k with
    | zero => simp; ring
    | succ k =>
      have hk : k < as.length := by simpa using h
      simp [ih k hk]; ring

end A1

namespace A1Atomic
open A1

/-- Every addition of line 152 lands either in one of the buckets or outside the
vector. -/
theorem workerBody_total (kernel : Int → Int) (g : Stats) (v : Int) :
    (workerBody kernel g v).number_counts.sum + (workerBody kernel g v).out_of_bounds
      = g.number_counts.sum + g.out_of_bounds + 1 := by
  have h := workerBody_counts kernel g v
  by_cases hi : 0 ≤ digitIndex v ∧ digitIndex v < (g.number_counts.length : Int)
  · rw [bump_some hi] at h
    simp only [Prod.mk.injEq] at h
    rw [h.1, h.2, sum_modify_succ _ _ (by omega)]
    ring
  · rw [bump_none hi] at h
    simp only [Prod.mk.injEq] at h
    rw [h.1, h.2]
    ring

theorem workerBody_in_bounds (kernel : Int → Int) (g : Stats) (v : Int)
    (hg : g.TenBuckets) (hv : 0 ≤ digitIndex v) :
    (workerBody kernel g v).out_of_bounds = g.out_of_bounds := by
  have h := workerBody_counts kernel g v
  have hlt := digitIndex_lt v
  have hi : 0 ≤ digitIndex v ∧ digitIndex v < (g.number_counts.length : Int) := by
    unfold Stats.TenBuckets at hg
    rw [hg]
    exact ⟨hv, by simpa using hlt⟩
  rw [bump_some hi] at h
  simp only [Prod.mk.injEq] at h
  exact h.2

theorem foldl_workerBody_total (kernel : Int → Int) (vals : List Int) (g : Stats) :
    (vals.foldl (workerBody kernel) g).number_counts.sum
        + (vals.foldl (workerBody kernel) g).out_of_bounds
      = g.number_counts.sum + g.out_of_bounds + vals.length := by
  induction vals generalizing g with
  | nil => simp
  | cons a as ih =>
    simp only [List.foldl_cons, ih, workerBody_total, List.length_cons]
    push_cast
    ring

theorem foldl_workerBody_in_bounds (kernel : Int → Int) (vals : List Int) (g : Stats)
    (hg : g.TenBuckets) (hv : ∀ v ∈ vals, 0 ≤ digitIndex v) :
    (vals.foldl (workerBody kernel) g).out_of_bounds = g.out_of_bounds := by
  induction vals generalizing g with
  | nil => rfl
  | cons a as ih =>
    simp only [List.foldl_cons]
    rw [ih _ (A1Mutex.tenBuckets_workerBody kernel g a hg)
      (fun v h => hv v (List.mem_cons_of_mem _ h)),
      workerBody_in_bounds kernel g a hg (hv a (List.mem_cons_self _ _))]

/-! ### Interleaved workers -/

theorem flatten_set_perm (ls : List (List Int)) (i : Nat) (v : Int) (rest : List Int)
    (h : ls[i]? = some (v :: rest)) :
    ls.flatten.Perm (v :: (ls.set i rest).flatten) := by
  induction ls generalizing i with
  | nil => simp at h
  | cons l ls ih =>
    cases i with
    | zero =>
      simp only [List.getElem?_cons_zero, Option.some.injEq] at h
      subst h
      simp
    | succ i =>
      simp only [List.getElem?_cons_succ] at h
      simp only [List.set_cons_succ, List.flatten_cons]
      exact ((ih i h).append_left l).trans List.perm_middle

/-- A loop iteration of any worker keeps the result that is still to come: folding the
per-item update over everything left in the queues gives the same statistics before
and after. -/
theorem stepWorker_keeps (kernel : Int → Int) (st : List SafeQ × Stats) (i : Nat) :
    ((stepWorker kernel st i).1.map SafeQ.q).flatten.foldl (workerBody kernel)
        (stepWorker kernel st i).2
      = (st.1.map SafeQ.q).flatten.foldl (workerBody kernel) st.2 := by
  unfold stepWorker
  cases hq : st.1[i]? with
  | none => rfl
  | some q =>
    cases hqq : q.q with
    | nil =>
      cases hd : q.producer_done <;>
        simp [SafeQ.wait_and_pop, hqq, SafeQ.is_producer_done, hd]
    | cons v rest =>
      simp only [SafeQ.wait_and_pop, hqq]
      have hget : (st.1.map SafeQ.q)[i]? = some (v :: rest) := by
        simp [List.getElem?_map, hq, hqq]
      have hset : (st.1.set i { q with q := rest }).map SafeQ.q
          = (st.1.map SafeQ.q).set i rest := by
        simp [List.map_set]
      rw [hset, foldl_workerBody_perm kernel (flatten_set_perm _ i v rest hget)]
      rfl

/-- Whatever the interleaving of the workers' loop iterations, once the queues are
empty the shared statistics are the per-item update folded over the pushed values:
the result of the run in which the workers follow one another. -/
theorem runSchedule_eq (kernel : Int → Int) (schedule : List Nat) (n : Nat) (vals : List Int)
    (hn : 0 < n)
    (hdone : ∀ q ∈ (runSchedule kernel schedule
        ((producerPushing vals (List.replicate n SafeQ.new) n).1, Stats.init)).1, q.q = []) :
    (runSchedule kernel schedule
        ((producerPushing vals (List.replicate n SafeQ.new) n).1, Stats.init)).2
      = vals.foldl (workerBody kernel) Stats.init := by
  have hkeep : ∀ (sched : List Nat) (st : List SafeQ × Stats),
      ((runSchedule kernel sched st).1.map SafeQ.q).flatten.foldl (workerBody kernel)
          (runSchedule kernel sched st).2
        = (st.1.map SafeQ.q).flatten.foldl (workerBody kernel) st.2 := by
    intro sched
    induction sched with
    | nil => intro st; rfl
    | cons i is ih =>
      intro st
      simp only [runSchedule, List.foldl_cons] at ih ⊢
      rw [ih, stepWorker_keeps]
  have h := hkeep schedule ((producerPushing vals (List.replicate n SafeQ.new) n).1, Stats.init)
  have hempty : ((runSchedule kernel schedule
      ((producerPushing vals (List.replicate n SafeQ.new) n).1, Stats.init)).1.map
        SafeQ.q).flatten = [] := by
    rw [List.flatten_eq_nil_iff]
    intro l hl
    rcases List.mem_map.1 hl with ⟨q, hq, rfl⟩
    exact hdone q hq
  rw [hempty] at h
  simp only [List.foldl_nil] at h
  rw [h, producerPushing_eq n hn vals]
  have hmap : ((List.range n).map
      (fun j => ({ q := shard n j vals, producer_done := true } : SafeQ))).map SafeQ.q
      = (List.range n).map (fun j => shard n j vals) := by
    simp
  simp only [hmap]
  exact foldl_workerBody_perm kernel (shards_perm n hn vals) _

/-- An interleaving of three workers on the values `2 .. 7`: the result is that of the
run in which the workers follow one another. -/
theorem runSchedule_example :
    (runSchedule isPrimeKernel [2, 0, 1, 1, 0, 2, 0]
        ((producerPushing [2, 3, 4, 5, 6, 7] (List.replicate 3 SafeQ.new) 3).1, Stats.init)).2
      = ([2, 3, 4, 5, 6, 7] : List Int).foldl (workerBody isPrimeKernel) Stats.init := by
  decide

end A1Atomic

/-! ## The claims -/

open A1

/-- C1 (atomic program, conservation).  For every sequence `vals` of pushed values and
every thread count `n ≥ 1`, the producer returns `produced_count = vals.length`, every
worker returns (within `fuel` iterations, for any `fuel` above the number of values), and
after the join the shared `consumed_count` equals `produced_count`.  The same holds
for `main` on any file on which `producer` returns. -/
theorem C1_atomic_conservation (kernel : Int → Int) (n fuel : Nat) (vals : List Int)
    (hn : 0 < n) (hfuel : vals.length < fuel) :
    (∃ g, A1Atomic.mainPushing kernel fuel n vals
        = some ((A1Atomic.producerPushing vals (List.replicate n A1Atomic.SafeQ.new) n).2, g)
      ∧ g.consumed_count
        = (A1Atomic.producerPushing vals (List.replicate n A1Atomic.SafeQ.new) n).2
      ∧ g.consumed_count = vals.length)
    ∧ (∀ (uninit : Int → Int) (file : Option (List Char)) (r : List A1Atomic.SafeQ × Int),
        A1Atomic.producer fuel uninit file (List.replicate n A1Atomic.SafeQ.new) n = some r →
        ∃ g, A1Atomic.main kernel fuel uninit file n = some (r.2, g)
          ∧ g.consumed_count = r.2) := by
  have hcount : ∀ (vs : List Int),
      (vs.foldl (A1Atomic.workerBody kernel) Stats.init).consumed_count = vs.length := by
    intro vs
    rw [A1Atomic.foldl_workerBody_consumed]
    simp [Stats.init]
  refine ⟨⟨_, ?_, ?_, hcount vals⟩, ?_⟩
  · rw [A1Atomic.mainPushing_eq kernel fuel n vals hn hfuel, A1Atomic.producerPushing_eq n hn]
  · rw [A1Atomic.producerPushing_eq n hn, hcount]
  · intro uninit file r hr
    obtain ⟨vs, hlen, hvs⟩ := A1Atomic.producer_pushes _ _ _ _ _ _ hr
    have hmain := A1Atomic.mainPushing_eq kernel fuel n vs hn hlen
    have hp := A1Atomic.producerPushing_eq n hn vs
    simp only [A1Atomic.mainPushing] at hmain
    refine ⟨vs.foldl (A1Atomic.workerBody kernel) Stats.init, ?_, ?_⟩
    · simp only [A1Atomic.main, hr]
      rw [hvs]
      rw [hmain, hp]
    · rw [hcount, hvs, hp]

theorem C1_atomic_conservation_witness :
    (∃ g, A1Atomic.mainPushing isPrimeKernel 4 3 [7, -3, 10]
        = some ((A1Atomic.producerPushing [7, -3, 10] (List.replicate 3 A1Atomic.SafeQ.new) 3).2, g)
      ∧ g.consumed_count
        = (A1Atomic.producerPushing [7, -3, 10] (List.replicate 3 A1Atomic.SafeQ.new) 3).2
      ∧ g.consumed_count = ([7, -3, 10] : List Int).length)
    ∧ (∀ (uninit : Int → Int) (file : Option (List Char)) (r : List A1Atomic.SafeQ × Int),
        A1Atomic.producer 4 uninit file (List.replicate 3 A1Atomic.SafeQ.new) 3 = some r →
        ∃ g, A1Atomic.main isPrimeKernel 4 uninit file 3 = some (r.2, g)
          ∧ g.consumed_count = r.2) :=
  C1_atomic_conservation isPrimeKernel 3 4 [7, -3, 10] (by decide) (by decide)

/-- C2 as amended (mutex program, conservation).  For every sequence `vals` of pushed
values none of which is `-1` and none of which has a negative `num % 10`, and every
`n ≥ 1`, the producer returns `produced_count = vals.length`, every worker returns and
merges, and the global `consumed_count` equals `produced_count`. -/
theorem C2_mutex_conservation_amended (kernel : Int → Int) (n fuel : Nat)
    (vals : List Int) (hn : 0 < n) (hfuel : vals.length < fuel) (hs : (-1 : Int) ∉ vals)
    (hd : ∀ v ∈ vals, 0 ≤ digitIndex v) :
    ∃ g, A1Mutex.mainPushing kernel fuel n vals
        = Outcome.returned
            ((A1Mutex.producerPushing vals (List.replicate n A1Mutex.SafeQ.new) n).2, g)
      ∧ g.consumed_count
        = (A1Mutex.producerPushing vals (List.replicate n A1Mutex.SafeQ.new) n).2
      ∧ g.consumed_count = vals.length := by
  have hcount : (vals.foldl (A1Atomic.workerBody kernel) Stats.init).consumed_count
      = vals.length := by
    rw [A1Atomic.foldl_workerBody_consumed]
    simp [Stats.init]
  refine ⟨_, ?_, ?_, hcount⟩
  · rw [A1Mutex.mutex_mainPushing_eq kernel fuel n vals hn hfuel hs hd,
      A1Mutex.mutex_producerPushing_eq n hn]
  · rw [A1Mutex.mutex_producerPushing_eq n hn, hcount]

theorem C2_mutex_conservation_amended_witness :
    ∃ g, A1Mutex.mainPushing isPrimeKernel 5 2 [4, 6, 7]
        = Outcome.returned
            ((A1Mutex.producerPushing [4, 6, 7] (List.replicate 2 A1Mutex.SafeQ.new) 2).2, g)
      ∧ g.consumed_count
        = (A1Mutex.producerPushing [4, 6, 7] (List.replicate 2 A1Mutex.SafeQ.new) 2).2
      ∧ g.consumed_count = ([4, 6, 7] : List Int).length :=
  C2_mutex_conservation_amended isPrimeKernel 2 5 [4, 6, 7]
    (by decide) (by decide) (by decide) (by decide)

/-- C2 as stated fails: with the pushed values `5, -1, 7` and one thread the producer
returns `produced_count = 3`, the worker leaves its loop at the pushed `-1`, and the
program ends with `consumed_count = 1`. -/
theorem C2_mutex_conservation_counterexample :
    A1Mutex.mainPushing isPrimeKernel 5 1 [5, -1, 7]
      = Outcome.returned (3,
          { primes := 1, nonprimes := 0, sum := 5, consumed_count := 1,
            number_counts := [0, 0, 0, 0, 0, 1, 0, 0, 0, 0], out_of_bounds := 0 }) := by
  decide

/-- C3 (atomic program, thread-count invariance).  For a fixed sequence of pushed values
and a fixed classifier, for every `n ≥ 1` the program returns the single-pass fold of
the per-item update over the whole sequence (primes, nonprimes, exact sum,
consumed_count and histogram), hence the same result for every thread count, in
particular for 1, 2, 16 and 64. -/
theorem C3_thread_count_invariance (kernel : Int → Int) (n fuel : Nat) (vals : List Int)
    (hn : 0 < n) (hfuel : vals.length < fuel) :
    A1Atomic.mainPushing kernel fuel n vals
        = some ((vals.length : Int), vals.foldl (A1Atomic.workerBody kernel) Stats.init)
      ∧ (∀ m, 0 < m →
          A1Atomic.mainPushing kernel fuel m vals = A1Atomic.mainPushing kernel fuel n vals)
      ∧ A1Atomic.mainPushing kernel fuel 1 vals = A1Atomic.mainPushing kernel fuel n vals
      ∧ A1Atomic.mainPushing kernel fuel 2 vals = A1Atomic.mainPushing kernel fuel n vals
      ∧ A1Atomic.mainPushing kernel fuel 16 vals = A1Atomic.mainPushing kernel fuel n vals
      ∧ A1Atomic.mainPushing kernel fuel 64 vals = A1Atomic.mainPushing kernel fuel n vals := by
  have h := A1Atomic.mainPushing_eq kernel fuel n vals hn hfuel
  have hall : ∀ m, 0 < m →
      A1Atomic.mainPushing kernel fuel m vals = A1Atomic.mainPushing kernel fuel n vals := by
    intro m hm
    rw [h, A1Atomic.mainPushing_eq kernel fuel m vals hm hfuel]
  exact ⟨h, hall, hall 1 (by decide), hall 2 (by decide), hall 16 (by decide),
    hall 64 (by decide)⟩

theorem C3_thread_count_invariance_witness :
    A1Atomic.mainPushing isPrimeKernel 4 2 [7, -3, 10]
      = some ((([7, -3, 10] : List Int).length : Int),
          ([7, -3, 10] : List Int).foldl (A1Atomic.workerBody isPrimeKernel) Stats.init) :=
  (C3_thread_count_invariance isPrimeKernel 2 4 [7, -3, 10] (by decide) (by decide)).1

/-- C4 at the failing inputs, with the domain on which the equivalence does hold.  For
the pushed value `-5` (no `-1` among the values) the atomic program returns its
statistics (one item consumed, no bucket incremented) while the worker of the mutex
program indexes `local_number_counts[-5]` and has no defined result; the same for
`7, -3, 10` on two threads.  For every `n ≥ 1` and every sequence of values none of which
is `-1` or has a negative `num % 10`, both programs return, with the same
`produced_count` and the same statistics: primes, nonprimes, exact sum,
consumed_count and the ten buckets. -/
theorem C4_equivalence_fails_on_negative_digit :
    A1Atomic.mainPushing isPrimeKernel 2 1 [-5]
        = some (1, { primes := 0, nonprimes := 1, sum := -5, consumed_count := 1,
                     number_counts := [0, 0, 0, 0, 0, 0, 0, 0, 0, 0], out_of_bounds := 1 })
      ∧ A1Mutex.mainPushing isPrimeKernel 2 1 [-5] = Outcome.undefinedBehaviour
      ∧ A1Atomic.mainPushing isPrimeKernel 4 2 [7, -3, 10]
        = some (3, { primes := 1, nonprimes := 2, sum := 14, consumed_count := 3,
                     number_counts := [1, 0, 0, 0, 0, 0, 0, 1, 0, 0], out_of_bounds := 1 })
      ∧ A1Mutex.mainPushing isPrimeKernel 4 2 [7, -3, 10] = Outcome.undefinedBehaviour
      ∧ (∀ (kernel : Int → Int) (n fuel : Nat) (vals : List Int),
          0 < n → vals.length < fuel → (-1 : Int) ∉ vals →
          (∀ v ∈ vals, 0 ≤ digitIndex v) →
          ∃ r : Int × Stats, A1Atomic.mainPushing kernel fuel n vals = some r
            ∧ A1Mutex.mainPushing kernel fuel n vals = Outcome.returned r
            ∧ r.2.number_counts.length = 10 ∧ r.2.out_of_bounds = 0) := by
  refine ⟨by decide, by decide, by decide, by decide, ?_⟩
  intro kernel n fuel vals hn hfuel hs hd
  refine ⟨_, A1Atomic.mainPushing_eq kernel fuel n vals hn hfuel,
    A1Mutex.mutex_mainPushing_eq kernel fuel n vals hn hfuel hs hd, ?_, ?_⟩
  · exact A1Mutex.tenBuckets_foldl kernel vals Stats.init A1Mutex.tenBuckets_init
  · rw [A1Atomic.foldl_workerBody_in_bounds kernel vals Stats.init A1Mutex.tenBuckets_init hd]
    rfl

/-- C5 at the failing inputs (both programs).  On the empty file the loop of `producer`
runs once: the read fails, `num` is not written, and the uninitialised value is pushed,
so `produced_count = 1` (and the atomic program ends with `consumed_count = 1`).  On
the file `7⏎` the loop runs twice and pushes a second, uninitialised value after `7`.
Only the file `7` without anything after the last digit gives exactly its integers. -/
theorem C5_producer_pushes_after_failed_read (uninit : Int → Int) :
    A1Atomic.producer 2 uninit (some []) [A1Atomic.SafeQ.new] 1
        = some ([{ q := [uninit 0], producer_done := true }], 1)
      ∧ A1Mutex.producer 2 uninit (some []) [A1Mutex.SafeQ.new] 1
        = some ([{ q := [uninit 0, -1] }], 1)
      ∧ (A1Atomic.main isPrimeKernel 2 uninit (some []) 1).map
          (fun r => (r.1, r.2.consumed_count)) = some (1, 1)
      ∧ A1Atomic.producer 3 uninit (some ['7', '\n']) [A1Atomic.SafeQ.new] 1
        = some ([{ q := [7, uninit 1], producer_done := true }], 2)
      ∧ A1Mutex.producer 3 uninit (some ['7', '\n']) [A1Mutex.SafeQ.new] 1
        = some ([{ q := [7, uninit 1, -1] }], 2)
      ∧ A1Atomic.producer 3 uninit (some ['7']) [A1Atomic.SafeQ.new] 1
        = some ([{ q := [7], producer_done := true }], 1) := by
  refine ⟨rfl, rfl, ?_, rfl, rfl, rfl⟩
  have hp : A1Atomic.producer 2 uninit (some []) (List.replicate 1 A1Atomic.SafeQ.new) 1
      = some ([{ q := [uninit 0], producer_done := true }], 1) := rfl
  have hrun := A1Atomic.runWorkers_closed isPrimeKernel 2 [[uninit 0]] (by simp) Stats.init
  have hc := (A1Atomic.workerBody_scalars isPrimeKernel Stats.init (uninit 0)).1
  simp only [List.map_cons, List.map_nil, List.flatten_cons, List.flatten_nil,
    List.append_nil, List.foldl_cons, List.foldl_nil] at hrun
  simp only [A1Atomic.main, hp, hrun, Option.map_some', hc]
  rfl

/-- C6 at the failing inputs (both programs).  On a file that holds the token `x`, and
on a file that cannot be opened, the read sets `failbit` and never `eofbit`; the loop
`while (!ifs.eof())` of `producer` does not end within any number of iterations. -/
theorem C6_producer_loop_does_not_end (fuel : Nat) (uninit : Int → Int) (n : Nat)
    (qa : List A1Atomic.SafeQ) (qm : List A1Mutex.SafeQ) :
    A1Atomic.producer fuel uninit (some ['1', ' ', 'x']) qa n = none
      ∧ A1Atomic.producer fuel uninit none qa n = none
      ∧ A1Mutex.producer fuel uninit (some ['1', ' ', 'x']) qm n = none
      ∧ A1Mutex.producer fuel uninit none qm n = none := by
  have hfile : ∀ {Q : Type} (push : Q → Int → Q) (st : ProducerState Q),
      producerLoop push uninit n fuel (IStream.open (some ['1', ' ', 'x'])) st = none := by
    intro Q push st
    match fuel with
    | 0 => rfl
    | 1 => rfl
    | f + 2 =>
      have h1 : (IStream.open (some ['1', ' ', 'x'])).extractInt
          = (some 1, { buf := [' ', 'x'], eofbit := false, failbit := false }) := by decide
      have h2 : ({ buf := [' ', 'x'], eofbit := false, failbit := false } : IStream).extractInt
          = (some 0, { buf := ['x'], eofbit := false, failbit := true }) := by decide
      have he : (IStream.open (some ['1', ' ', 'x'])).eof = false := rfl
      rw [producerLoop, producerLoop]
      simp only [he, h1, h2, IStream.eof]
      exact producerLoop_stuck push uninit n f _ _ rfl rfl
  have hnone : ∀ {Q : Type} (push : Q → Int → Q) (st : ProducerState Q),
      producerLoop push uninit n fuel (IStream.open none) st = none :=
    fun push st => producerLoop_stuck push uninit n fuel _ st rfl rfl
  simp [A1Atomic.producer, A1Mutex.producer, hfile, hnone]

/-- C7 (round-robin distribution and termination signal).  For every sequence `vals`
of pushed values and every `n ≥ 1`, when the loop of the producer has pushed `vals`:
`produced_count = vals.length`; in the atomic program queue `j` (for each `j < n`)
holds exactly `shard n j vals` and has `producer_done` set; in the mutex program
queue `j` holds `shard n j vals` followed by exactly one `-1`. -/
theorem C7_round_robin_distribution (n : Nat) (vals : List Int) (hn : 0 < n) :
    A1Atomic.producerPushing vals (List.replicate n A1Atomic.SafeQ.new) n
        = ((List.range n).map
            (fun j => ({ q := shard n j vals, producer_done := true } : A1Atomic.SafeQ)),
          (vals.length : Int))
      ∧ A1Mutex.producerPushing vals (List.replicate n A1Mutex.SafeQ.new) n
        = ((List.range n).map (fun j => ({ q := shard n j vals ++ [-1] } : A1Mutex.SafeQ)),
          (vals.length : Int))
      ∧ (∀ j, j < n →
          (A1Atomic.producerPushing vals (List.replicate n A1Atomic.SafeQ.new) n).1[j]?
            = some { q := shard n j vals, producer_done := true }
          ∧ (A1Mutex.producerPushing vals (List.replicate n A1Mutex.SafeQ.new) n).1[j]?
            = some { q := shard n j vals ++ [-1] }) := by
  refine ⟨A1Atomic.producerPushing_eq n hn vals, A1Mutex.mutex_producerPushing_eq n hn vals, ?_⟩
  intro j hj
  rw [A1Atomic.producerPushing_eq n hn vals, A1Mutex.mutex_producerPushing_eq n hn vals]
  simp [hj]

theorem C7_round_robin_distribution_witness :
    A1Atomic.producerPushing [10, 11, 12, 13, 14] (List.replicate 3 A1Atomic.SafeQ.new) 3
        = ((List.range 3).map
            (fun j => ({ q := shard 3 j [10, 11, 12, 13, 14], producer_done := true } :
              A1Atomic.SafeQ)),
          (([10, 11, 12, 13, 14] : List Int).length : Int)) :=
  (C7_round_robin_distribution 3 [10, 11, 12, 13, 14] (by decide)).1

/-- C8 at the failing input (both programs), with the domain on which the invariant
does hold.  For the consumed value `-3` the bucket index `num % 10` is `-3`, which is
no index of the ten-bucket vector.  In the atomic program no bucket in `0..9` is
incremented while `consumed_count` becomes 1, so the buckets total 0 and not
`consumed_count`; in the mutex program the worker has no defined result.  In the
atomic program, for every sequence of values, the buckets total `consumed_count` less
the number of additions outside the vector.  For sequences of non-negative values both
programs end with a ten-bucket histogram whose buckets total `consumed_count`. -/
theorem C8_histogram_negative_value :
    digitIndex (-3) = -3
      ∧ bump (List.replicate 10 0) (digitIndex (-3)) = none
      ∧ A1Atomic.mainPushing isPrimeKernel 2 1 [-3]
        = some (1, { primes := 0, nonprimes := 1, sum := -3, consumed_count := 1,
                     number_counts := [0, 0, 0, 0, 0, 0, 0, 0, 0, 0], out_of_bounds := 1 })
      ∧ (A1Atomic.mainPushing isPrimeKernel 2 1 [-3]).map
          (fun r => (r.2.consumed_count, r.2.histogramTotal)) = some (1, 0)
      ∧ A1Mutex.mainPushing isPrimeKernel 2 1 [-3] = Outcome.undefinedBehaviour
      ∧ (∀ (kernel : Int → Int) (n fuel : Nat) (vals : List Int),
          0 < n → vals.length < fuel →
          ∃ p g, A1Atomic.mainPushing kernel fuel n vals = some (p, g)
            ∧ g.number_counts.length = 10
            ∧ g.number_counts.sum + g.out_of_bounds = g.consumed_count)
      ∧ (∀ (kernel : Int → Int) (n fuel : Nat) (vals : List Int),
          0 < n → vals.length < fuel → (∀ v ∈ vals, 0 ≤ v) →
          ∃ p g, A1Atomic.mainPushing kernel fuel n vals = some (p, g)
            ∧ A1Mutex.mainPushing kernel fuel n vals = Outcome.returned (p, g)
            ∧ g.number_counts.length = 10 ∧ g.number_counts.sum = g.consumed_count) := by
  have htotal : ∀ (kernel : Int → Int) (vals : List Int),
      (vals.foldl (A1Atomic.workerBody kernel) Stats.init).number_counts.sum
          + (vals.foldl (A1Atomic.workerBody kernel) Stats.init).out_of_bounds
        = (vals.foldl (A1Atomic.workerBody kernel) Stats.init).consumed_count := by
    intro kernel vals
    rw [A1Atomic.foldl_workerBody_total, A1Atomic.foldl_workerBody_consumed]
    simp [Stats.init]
  refine ⟨by decide, by decide, by decide, by decide, by decide, ?_, ?_⟩
  · intro kernel n fuel vals hn hfuel
    exact ⟨_, _, A1Atomic.mainPushing_eq kernel fuel n vals hn hfuel,
      A1Mutex.tenBuckets_foldl kernel vals Stats.init A1Mutex.tenBuckets_init,
      htotal kernel vals⟩
  · intro kernel n fuel vals hn hfuel hv
    have hs : (-1 : Int) ∉ vals := fun h => absurd (hv _ h) (by decide)
    have hd : ∀ v ∈ vals, 0 ≤ digitIndex v := fun v h => Int.tmod_nonneg _ (hv v h)
    refine ⟨_, _, A1Atomic.mainPushing_eq kernel fuel n vals hn hfuel,
      A1Mutex.mutex_mainPushing_eq kernel fuel n vals hn hfuel hs hd,
      A1Mutex.tenBuckets_foldl kernel vals Stats.init A1Mutex.tenBuckets_init, ?_⟩
    have h := htotal kernel vals
    rw [A1Atomic.foldl_workerBody_in_bounds kernel vals Stats.init A1Mutex.tenBuckets_init hd]
      at h
    simpa [Stats.init] using h

namespace A1Atomic
open A1

theorem classified_workerBody (kernel : Int → Int) (g : Stats) (v : Int) (h : g.Classified) :
    (workerBody kernel g v).Classified := by
  obtain ⟨h1, _, h3, h4⟩ := workerBody_scalars kernel g v
  unfold Stats.Classified at h ⊢
  rw [h1, h3, h4]
  by_cases hk : kernel v = 1 <;> simp [hk] <;> omega

theorem worker_invariant (kernel : Int → Int) (P : Stats → Prop)
    (hbody : ∀ g v, P g → P (workerBody kernel g v)) (fuel : Nat) (q q' : SafeQ) (g g' : Stats)
    (hg : P g) (h : worker kernel fuel q g = some (q', g')) : P g' := by
  induction fuel generalizing q g with
  | zero => simp [worker] at h
  | succ f ih =>
    rw [worker] at h
    cases hw : q.wait_and_pop (f + 1) with
    | none => simp [hw] at h
    | some r =>
      obtain ⟨res, q1⟩ := r
      cases res with
      | none =>
        simp only [hw, Option.some.injEq, Prod.mk.injEq] at h
        exact h.2 ▸ hg
      | some num =>
        simp only [hw] at h
        exact ih _ _ (hbody g num hg) h

theorem runWorkers_invariant (kernel : Int → Int) (P : Stats → Prop)
    (hbody : ∀ g v, P g → P (workerBody kernel g v)) (fuel : Nat) (qs : List SafeQ)
    (g g' : Stats) (hg : P g) (h : runWorkers kernel fuel qs g = some g') : P g' := by
  induction qs generalizing g with
  | nil =>
    simp only [runWorkers, Option.some.injEq] at h
    exact h ▸ hg
  | cons q qs ih =>
    rw [runWorkers] at h
    cases hw : worker kernel fuel q g with
    | none => simp [hw] at h
    | some r =>
      simp only [hw] at h
      exact ih _ (worker_invariant kernel P hbody fuel q r.1 g r.2 hg hw) h

end A1Atomic

namespace A1Mutex
open A1

theorem classified_init : Stats.init.Classified := by
  simp [Stats.Classified, Stats.init]

theorem mutex_classified_workerBody (kernel : Int → Int) (l l' : Stats) (v : Int)
    (h : l.Classified) (hb : workerBody kernel l v = some l') : l'.Classified := by
  unfold Stats.Classified at h ⊢
  unfold workerBody at hb
  by_cases hk : kernel v = 1 <;> simp only [hk, if_true, if_false] at hb
  · split at hb
    · cases hb
    · simp only [Option.some.injEq] at hb
      subst hb
      simp only
      omega
  · split at hb
    · cases hb
    · simp only [Option.some.injEq] at hb
      subst hb
      simp only
      omega

theorem classified_merge (g l : Stats) (hg : g.Classified) (hl : l.Classified) :
    (merge g l).Classified := by
  unfold Stats.Classified at hg hl ⊢
  simp only [merge]
  omega

theorem workerIteration_next (kernel : Int → Int) (q q' : SafeQ) (l l' : Stats)
    (h : workerIteration kernel q l = Iteration.next q' l') :
    ∃ num, workerBody kernel l num = some l' := by
  unfold workerIteration at h
  split at h
  · cases h
  · cases h
  · rename_i num q1 _
    by_cases hn : num = -1
    · simp [hn] at h
    · simp only [hn, if_false] at h
      cases hb : workerBody kernel l num with
      | none => simp [hb] at h
      | some l1 =>
        simp only [hb, Iteration.next.injEq] at h
        exact ⟨num, by rw [hb, h.2]⟩

theorem workerLoop_invariant (kernel : Int → Int) (P : Stats → Prop)
    (hbody : ∀ l v l', P l → workerBody kernel l v = some l' → P l') (fuel : Nat)
    (q q' : SafeQ) (l l' : Stats) (hl : P l)
    (h : workerLoop kernel fuel q l = Outcome.returned (q', l')) : P l' := by
  induction fuel generalizing q l with
  | zero => simp [workerLoop] at h
  | succ f ih =>
    rw [workerLoop] at h
    cases hi : workerIteration kernel q l with
    | blocked => simp [hi] at h
    | undefinedBehaviour => simp [hi] at h
    | exit q1 =>
      simp only [hi, Outcome.returned.injEq, Prod.mk.injEq] at h
      exact h.2 ▸ hl
    | next q1 l1 =>
      simp only [hi] at h
      obtain ⟨num, hnum⟩ := workerIteration_next kernel q q1 l l1 hi
      exact ih _ _ (hbody l num l1 hl hnum) h

theorem runWorkers_kept (kernel : Int → Int) (P : Stats → Prop) (hinit : P Stats.init)
    (hbody : ∀ l v l', P l → workerBody kernel l v = some l' → P l')
    (hmerge : ∀ g l, P g → P l → P (merge g l)) (fuel : Nat) (qs : List SafeQ)
    (g g' : Stats) (hg : P g) (h : runWorkers kernel fuel qs g = Outcome.returned g') :
    P g' := by
  induction qs generalizing g with
  | nil =>
    simp only [runWorkers, Outcome.returned.injEq] at h
    exact h ▸ hg
  | cons q qs ih =>
    rw [runWorkers] at h
    cases hw : worker kernel fuel q g with
    | noReturn => simp [hw] at h
    | undefinedBehaviour => simp [hw] at h
    | returned r =>
      simp only [hw] at h
      unfold worker at hw
      cases hloop : workerLoop kernel fuel q Stats.init with
      | noReturn => simp [hloop] at hw
      | undefinedBehaviour => simp [hloop] at hw
      | returned r0 =>
        simp only [hloop, Outcome.returned.injEq] at hw
        have hloc : P r0.2 :=
          workerLoop_invariant kernel P hbody fuel q r0.1 Stats.init r0.2 hinit hloop
        refine ih _ ?_ h
        rw [← hw]
        exact hmerge g r0.2 hg hloc

end A1Mutex

/-- C9 (classification-count invariant).  For every classifier, every `n ≥ 1` and every
sequence of pushed values the atomic program returns with `primes + nonprimes =
consumed_count`; so does the mutex program for every sequence whose values other than
`-1` have a non-negative `num % 10`; for both programs the equation holds for the
global totals on whatever queues the workers are run (every queue content) whenever
they all finish; and in the mutex program the worker's local counters satisfy it
initially, after every loop iteration, at the exit of the loop for every queue
content, and the merge keeps it. -/
theorem C9_classification_count_invariant (kernel : Int → Int) (n fuel : Nat)
    (vals : List Int) (hn : 0 < n) (hfuel : vals.length < fuel) :
    (∃ p g, A1Atomic.mainPushing kernel fuel n vals = some (p, g)
        ∧ g.primes + g.nonprimes = g.consumed_count)
      ∧ ((∀ v ∈ vals, v = -1 ∨ 0 ≤ digitIndex v) →
          ∃ p g, A1Mutex.mainPushing kernel fuel n vals = Outcome.returned (p, g)
            ∧ g.primes + g.nonprimes = g.consumed_count)
      ∧ (∀ (f : Nat) (qs : List A1Atomic.SafeQ) (g : Stats),
          A1Atomic.runWorkers kernel f qs Stats.init = some g →
          g.primes + g.nonprimes = g.consumed_count)
      ∧ (∀ (f : Nat) (qs : List A1Mutex.SafeQ) (g : Stats),
          A1Mutex.runWorkers kernel f qs Stats.init = Outcome.returned g →
          g.primes + g.nonprimes = g.consumed_count)
      ∧ Stats.init.primes + Stats.init.nonprimes = Stats.init.consumed_count
      ∧ (∀ (q q' : A1Mutex.SafeQ) (l l' : Stats),
          l.primes + l.nonprimes = l.consumed_count →
          A1Mutex.workerIteration kernel q l = A1Mutex.Iteration.next q' l' →
          l'.primes + l'.nonprimes = l'.consumed_count)
      ∧ (∀ (f : Nat) (q q' : A1Mutex.SafeQ) (l : Stats),
          A1Mutex.workerLoop kernel f q Stats.init = Outcome.returned (q', l) →
          l.primes + l.nonprimes = l.consumed_count)
      ∧ (∀ g l : Stats, g.primes + g.nonprimes = g.consumed_count →
          l.primes + l.nonprimes = l.consumed_count →
          (A1Mutex.merge g l).primes + (A1Mutex.merge g l).nonprimes
            = (A1Mutex.merge g l).consumed_count) := by
  have hbody : ∀ l v l', Stats.Classified l → A1Mutex.workerBody kernel l v = some l' →
      Stats.Classified l' :=
    fun l v l' hl hb => A1Mutex.mutex_classified_workerBody kernel l l' v hl hb
  refine ⟨?_, ?_, ?_, ?_, A1Mutex.classified_init, ?_, ?_, A1Mutex.classified_merge⟩
  · have h := A1Atomic.mainPushing_eq kernel fuel n vals hn hfuel
    refine ⟨_, _, h, ?_⟩
    exact A1Mutex.foldl_invariant kernel Stats.Classified
      (A1Atomic.classified_workerBody kernel) vals Stats.init A1Mutex.classified_init
  · intro hd
    have hp := A1Mutex.mutex_producerPushing_eq n hn vals
    have hmap : (List.range n).map (fun j => ({ q := shard n j vals ++ [-1] } : A1Mutex.SafeQ))
        = ((List.range n).map (fun j => shard n j vals)).map
            (fun l => ({ q := l ++ [-1] } : A1Mutex.SafeQ)) := by
      simp
    obtain ⟨g', hrun, hg'⟩ := A1Mutex.mutex_runWorkers_invariant kernel Stats.Classified
      A1Mutex.classified_init (A1Atomic.classified_workerBody kernel) A1Mutex.classified_merge
      fuel ((List.range n).map (fun j => shard n j vals))
      (by
        intro l hl
        refine ⟨?_, fun v hv => hd v ((shards_perm n hn vals).mem_iff.1
          (List.mem_flatten.2 ⟨l, hl, hv⟩))⟩
        rcases List.mem_map.1 hl with ⟨j, _, rfl⟩
        exact lt_of_le_of_lt (shard_length_le n j vals) hfuel)
      Stats.init A1Mutex.classified_init
    refine ⟨(vals.length : Int), g', ?_, hg'⟩
    simp only [A1Mutex.mainPushing, hp, hmap, hrun, A1Mutex.report]
  · intro f qs g h
    exact A1Atomic.runWorkers_invariant kernel Stats.Classified
      (A1Atomic.classified_workerBody kernel) f qs Stats.init g A1Mutex.classified_init h
  · intro f qs g h
    exact A1Mutex.runWorkers_kept kernel Stats.Classified A1Mutex.classified_init
      hbody A1Mutex.classified_merge f qs Stats.init g A1Mutex.classified_init h
  · intro q q' l l' hl h
    obtain ⟨num, hnum⟩ := A1Mutex.workerIteration_next kernel q q' l l' h
    exact hbody l num l' hl hnum
  · intro f q q' l h
    exact A1Mutex.workerLoop_invariant kernel Stats.Classified hbody f q q' Stats.init l
      A1Mutex.classified_init h

theorem C9_classification_count_invariant_witness :
    (∃ p g, A1Atomic.mainPushing isPrimeKernel 6 1 [4, 6, -1, 9, -10] = some (p, g)
        ∧ g.primes + g.nonprimes = g.consumed_count)
      ∧ (∃ p g, A1Mutex.mainPushing isPrimeKernel 6 1 [4, 6, -1, 9, -10]
          = Outcome.returned (p, g)
        ∧ g.primes + g.nonprimes = g.consumed_count) :=
  ⟨(C9_classification_count_invariant isPrimeKernel 1 6 [4, 6, -1, 9, -10]
      (by decide) (by decide)).1,
    (C9_classification_count_invariant isPrimeKernel 1 6 [4, 6, -1, 9, -10]
      (by decide) (by decide)).2.1 (by decide)⟩

/-- C10 (`SafeQ::wait_and_pop` of the atomic program).  For every queue state: on a
non-empty queue the call returns the oldest item and removes exactly that item,
whatever `producer_done` is; it returns `nullptr` only when the queue is empty and
`producer_done` is set, and then leaves the queue as it is; on an empty queue with
`producer_done` set it does return `nullptr`; on an empty queue without it the call
does not return.  Hence, on a queue that received `items` by `push` and then
`set_producer_done`, the first `items.length` calls return the items in push order and
every later call returns `nullptr`. -/
theorem C10_wait_and_pop_contract (s : A1Atomic.SafeQ) (fuel : Nat) (items : List Int)
    (extra : Nat) :
    (∀ v rest, s.q = v :: rest →
        s.wait_and_pop (fuel + 1) = some (some v, { s with q := rest }))
      ∧ (∀ s', s.wait_and_pop fuel = some (none, s') →
        s.q = [] ∧ s.producer_done = true ∧ s' = s)
      ∧ (s.q = [] → s.producer_done = true → s.wait_and_pop (fuel + 1) = some (none, s))
      ∧ (s.q = [] → s.producer_done = false → s.wait_and_pop fuel = none)
      ∧ A1Atomic.SafeQ.popTimes (fuel + 1) (items.length + extra)
          (items.foldl A1Atomic.SafeQ.push A1Atomic.SafeQ.new).set_producer_done
        = some (items.map some ++ List.replicate extra none,
            { q := [], producer_done := true }) := by
  refine ⟨fun v rest h => A1Atomic.SafeQ.wait_and_pop_cons fuel s v rest h,
    fun s' h => A1Atomic.SafeQ.wait_and_pop_eos fuel s s' h,
    fun hq hd => A1Atomic.SafeQ.wait_and_pop_done fuel s hq hd,
    fun hq hd => A1Atomic.SafeQ.wait_and_pop_spin fuel s hq hd, ?_⟩
  rw [A1Atomic.foldl_push]
  exact A1Atomic.SafeQ.popTimes_closed fuel items extra
